import Mathlib

set_option maxRecDepth 40000

/-!
Verification development for the rustymap Anvil/NBT reader.

This file gives a shallow embedding, in Lean 4, of the decoding stack of the
repository (`src/tag.rs`, `src/chunk.rs`, `src/region.rs`) and proves or
refutes the frozen claims about it.

Modelling conventions, used throughout:

* Rust byte buffers (`Vec<u8>`, `&[u8]`) are `List Nat`, each element `< 256`
  in intended use; machine integers are `Nat`/`Int` with explicit `% 2 ^ w`
  where wrap-around matters.
* Rust panics and `process::exit` calls are both modelled as `none` of an
  `Option` result: they abort the computation without producing a value.
* Strings are modelled as their UTF-8 byte sequences (`List Nat`).
* Native endianness (`from_ne_bytes`) is modelled as little-endian, the byte
  order of the x86-64 targets the repository builds for; where a claim is
  settled by a byte-order-independent fact (an element count), the theorem is
  phrased on that fact.
-/

namespace Rustymap

/-- Big-endian interpretation of a byte list (first byte most significant). -/
def beNat (l : List Nat) : Nat := l.foldl (fun a b => a * 256 + b) 0

/-- Little-endian interpretation of a byte list (first byte least significant). -/
def leNat (l : List Nat) : Nat := beNat l.reverse

/-- Reinterpret the `w`-bit unsigned value `n` as a signed two's-complement
integer, as Rust's `iN::from_be_bytes`/`from_ne_bytes` do. -/
def toSigned (w : Nat) (n : Nat) : Int :=
  if n < 2 ^ (w - 1) then (n : Int) else (n : Int) - 2 ^ w

/-- The two's-complement `u64` bit pattern of an `i64`, as printed by Rust's
`format!("{x:064b}")`. -/
def toU64 (x : Int) : Nat := (x % (2 ^ 64 : Int)).toNat

/-- Rust's `i32 as usize` on the 64-bit targets: sign-extend, reinterpret.
The argument is the 32-bit unsigned bit pattern. -/
def usizeOfI32 (k : Nat) : Nat :=
  if k < 2 ^ 31 then k else 2 ^ 64 - 2 ^ 32 + k

/-- The `w` low bits of `n`, least-significant first. -/
def bitsLE : Nat → Nat → List Nat
  | 0, _ => []
  | w + 1, n => n % 2 :: bitsLE w (n / 2)

/-- The value of a most-significant-first bit string, as parsed by
`i16::from_str_radix(s, 2)` (the binary digits are modelled by their values). -/
def parseBE (l : List Nat) : Nat := l.foldl (fun a b => a * 2 + b) 0

/-- Fuelled worker for `chunkList`; the fuel is an upper bound on the number
of produced chunks. -/
def chunkListAux {α : Type} : Nat → Nat → List α → List (List α)
  | 0, _, _ => []
  | _ + 1, _, [] => []
  | fuel + 1, k, a :: l => ((a :: l).take k) :: chunkListAux fuel k ((a :: l).drop k)

/-- Rust's slice `chunks(k)`: split into consecutive chunks of `k` elements,
the last chunk possibly shorter (meaningful for `k ≥ 1`). -/
def chunkList {α : Type} (k : Nat) (l : List α) : List (List α) :=
  chunkListAux l.length k l

/-- Rust's slice `chunks_exact(k)`: like `chunks(k)` but the short remainder
chunk is dropped. -/
def chunksExact {α : Type} (k : Nat) (l : List α) : List (List α) :=
  (chunkList k l).filter (fun c => c.length = k)

section BitLemmas

theorem length_bitsLE (w n : Nat) : (bitsLE w n).length = w := by
  induction w generalizing n with
  | zero => rfl
  | succ w ih => simp [bitsLE, ih]

theorem take_bitsLE (k : Nat) : ∀ w n, k ≤ w → (bitsLE w n).take k = bitsLE k n := by
  induction k with
  | zero => intro w n _; simp [bitsLE]
  | succ k ih =>
    intro w n hw
    cases w with
    | zero => omega
    | succ w => simp [bitsLE, List.take_succ_cons, ih w (n / 2) (by omega)]

theorem drop_bitsLE (k : Nat) : ∀ w n, (bitsLE w n).drop k = bitsLE (w - k) (n / 2 ^ k) := by
  induction k with
  | zero => intro w n; simp
  | succ k ih =>
    intro w n
    cases w with
    | zero => simp [bitsLE]
    | succ w =>
      have h2 : n / 2 / 2 ^ k = n / 2 ^ (k + 1) := by
        rw [Nat.div_div_eq_div_mul, pow_succ, mul_comm]
      simp [bitsLE, List.drop_succ_cons, ih w (n / 2), h2]

theorem parseBE_append_bit (l : List Nat) (b : Nat) :
    parseBE (l ++ [b]) = 2 * parseBE l + b := by
  simp [parseBE, List.foldl_append]
  ring

theorem two_mul_half_mod_pow (w n : Nat) :
    2 * (n / 2 % 2 ^ w) + n % 2 = n % 2 ^ (w + 1) := by
  have hpow : (2 : Nat) ^ (w + 1) = 2 * 2 ^ w := by rw [pow_succ, mul_comm]
  rw [hpow, Nat.mod_mul]
  omega

theorem parseBE_reverse_bitsLE (w : Nat) : ∀ n, parseBE (bitsLE w n).reverse = n % 2 ^ w := by
  induction w with
  | zero => intro n; simp [bitsLE, parseBE, Nat.mod_one]
  | succ w ih =>
    intro n
    rw [bitsLE, List.reverse_cons, parseBE_append_bit, ih (n / 2),
      two_mul_half_mod_pow]

theorem bitsLE_add (w₁ w₂ n : Nat) :
    bitsLE (w₁ + w₂) n = bitsLE w₁ n ++ bitsLE w₂ (n / 2 ^ w₁) := by
  have h := List.take_append_drop w₁ (bitsLE (w₁ + w₂) n)
  rw [take_bitsLE w₁ (w₁ + w₂) n (by omega), drop_bitsLE w₁ (w₁ + w₂) n] at h
  simpa [Nat.add_sub_cancel_left] using h.symm

end BitLemmas

section ChunkListLemmas

theorem chunkListAux_congr {α : Type} (f₁ : Nat) :
    ∀ (f₂ k : Nat) (l : List α), 1 ≤ k → l.length ≤ f₁ → l.length ≤ f₂ →
      chunkListAux f₁ k l = chunkListAux f₂ k l := by
  induction f₁ with
  | zero =>
    intro f₂ k l _ h1 _
    have : l = [] := List.eq_nil_of_length_eq_zero (by omega)
    subst this
    cases f₂ <;> rfl
  | succ f₁ ih =>
    intro f₂ k l hk h1 h2
    cases l with
    | nil => cases f₂ <;> rfl
    | cons a l =>
      cases f₂ with
      | zero => simp at h2
      | succ f₂ =>
        have hlen : ((a :: l).drop k).length ≤ f₁ := by
          simp only [List.length_drop, List.length_cons] at *
          omega
        have hlen2 : ((a :: l).drop k).length ≤ f₂ := by
          simp only [List.length_drop, List.length_cons] at *
          omega
        simp only [chunkListAux]
        rw [ih f₂ k _ hk hlen hlen2]

theorem chunkList_nil {α : Type} (k : Nat) : chunkList k ([] : List α) = [] := rfl

theorem chunkList_cons {α : Type} (k : Nat) (l : List α) (hk : 1 ≤ k) (hl : l ≠ []) :
    chunkList k l = l.take k :: chunkList k (l.drop k) := by
  cases l with
  | nil => exact absurd rfl hl
  | cons a l =>
    show chunkListAux (a :: l).length k (a :: l) = _
    simp only [List.length_cons, chunkListAux]
    congr 1
    exact chunkListAux_congr l.length (((a :: l).drop k).length) k _ hk
      (by simp only [List.length_drop, List.length_cons]; omega) le_rfl

end ChunkListLemmas

/-! ## `chunk.rs`: the palette grid unpacker (`process_block_data`, `process_biome_data`)

`process_block_data` renders each `i64` as its 64-character binary string
(most significant bit first), strips the leading `64 % bits_per_entry`
padding characters, splits the rest into `bits_per_entry`-character groups,
parses each group as a binary number, keeps only full-width groups, and
reverses the per-long list; the per-long lists are concatenated (capped at
4096 entries) and the whole run aborts unless exactly 4096 entries result.
The binary string is modelled as the list of bit values (`msbBits`). -/

/-- The `w`-bit binary rendering of `n`, most significant bit first:
Rust's `format!("{n:0w… b}")` with digits modelled by their values. -/
def msbBits (w n : Nat) : List Nat := (bitsLE w n).reverse

/-- One iteration of the loop body of `process_block_data` /
`process_biome_data` over a single `i64` of the packed array. -/
def decodeLong (bits_per_entry : Nat) (long_int : Int) : List Nat :=
  let raw_bits := msbBits 64 (toU64 long_int)
  let trimmed_bits := raw_bits.drop (64 % bits_per_entry)
  let entries := chunkList bits_per_entry trimmed_bits
  let entry_list := entries.filterMap
    (fun entry => if entry.length = bits_per_entry then some (parseBE entry) else none)
  entry_list.reverse

/-- `Chunk::process_block_data` (`chunk.rs:371-416`): unpack the packed
block-state long array into 4096 palette indices; `exit(556)` (modelled
`none`) unless exactly 4096 entries are produced. -/
def process_block_data (bits_per_entry : Nat) (long_ints : List Int) : Option (List Nat) :=
  let indecies := long_ints.foldl
    (fun acc long_int => acc ++ (decodeLong bits_per_entry long_int).take (4096 - acc.length))
    []
  if indecies.length = 4096 then some indecies else none

/-- `Chunk::process_biome_data` (`chunk.rs:493-538`): identical loop (with the
same literal 4096 cap on pushes), but the final length check is 64. -/
def process_biome_data (bits_per_entry : Nat) (long_ints : List Int) : Option (List Nat) :=
  let indecies := long_ints.foldl
    (fun acc long_int => acc ++ (decodeLong bits_per_entry long_int).take (4096 - acc.length))
    []
  if indecies.length = 64 then some indecies else none

/-- Fuelled bit-length helper (structural, so that it kernel-reduces). -/
def bitLenAux : Nat → Nat → Nat
  | 0, _ => 0
  | fuel + 1, n => if n = 0 then 0 else 1 + bitLenAux fuel (n / 2)

/-- Exact model of `(p as f64).log2().ceil() as usize` for the palette sizes
that occur (≤ 4096), for which the floating-point computation is exact enough
that `ceil` agrees with the exact ceiling of the base-2 logarithm. -/
def ceilLog2 (p : Nat) : Nat :=
  if p ≤ 1 then 0 else bitLenAux p (p - 1)

/-- The bits-per-entry computation of `Chunk::process_block_states`
(`chunk.rs:296-299`): `max(4, ceil(log2(palette.len())))`. -/
def block_bits_per_entry (palette_len : Nat) : Nat :=
  max 4 (ceilLog2 palette_len)

section UnpackerLemmas

/-- Splitting the most-significant-first rendering of the low `B * q` bits of
`n` into `B`-bit groups and parsing each group yields the entries
`n / 2 ^ (B * k) % 2 ^ B` for `k = q - 1, …, 0` (highest entry first). -/
theorem chunkList_msbBits_parse (B : Nat) (hB : 1 ≤ B) : ∀ (q n : Nat),
    (chunkList B (msbBits (B * q) n)).filterMap
      (fun entry => if entry.length = B then some (parseBE entry) else none)
    = ((List.range q).map (fun k => n / 2 ^ (B * k) % 2 ^ B)).reverse := by
  intro q
  induction q with
  | zero =>
    intro n
    simp [msbBits, bitsLE, chunkList_nil]
  | succ q ih =>
    intro n
    have hsplit : bitsLE (B * (q + 1)) n
        = bitsLE (B * q) n ++ bitsLE B (n / 2 ^ (B * q)) := by
      rw [Nat.mul_succ]; exact bitsLE_add (B * q) B n
    have hmsb : msbBits (B * (q + 1)) n
        = (bitsLE B (n / 2 ^ (B * q))).reverse ++ (bitsLE (B * q) n).reverse := by
      rw [msbBits, hsplit, List.reverse_append]
    have hlen1 : ((bitsLE B (n / 2 ^ (B * q))).reverse).length = B := by
      simp [length_bitsLE]
    have hne : msbBits (B * (q + 1)) n ≠ [] := by
      rw [hmsb]
      intro h
      have := congrArg List.length h
      simp [length_bitsLE] at this
      omega
    rw [hmsb, chunkList_cons B _ hB (hmsb ▸ hne),
      List.take_left' hlen1, List.drop_left' hlen1]
    rw [List.filterMap_cons]
    simp only [hlen1, if_pos rfl]
    rw [show (bitsLE (B * q) n).reverse = msbBits (B * q) n from rfl, ih n]
    rw [parseBE_reverse_bitsLE]
    rw [List.range_succ, List.map_append, List.reverse_append]
    simp

/-- `decodeLong` produces exactly `64 / B` entries per long, entry `k` (in
output order) being bits `[k*B, (k+1)*B)` of the two's-complement pattern. -/
theorem decodeLong_eq (B : Nat) (hB : 1 ≤ B) (x : Int) :
    decodeLong B x
    = (List.range (64 / B)).map (fun k => toU64 x / 2 ^ (B * k) % 2 ^ B) := by
  have hsplit := bitsLE_add (B * (64 / B)) (64 % B) (toU64 x)
  rw [Nat.div_add_mod 64 B] at hsplit
  have hdrop : (msbBits 64 (toU64 x)).drop (64 % B)
      = msbBits (B * (64 / B)) (toU64 x) := by
    rw [msbBits, hsplit, List.reverse_append]
    exact List.drop_left' (by simp [length_bitsLE])
  rw [decodeLong]
  simp only [hdrop]
  rw [chunkList_msbBits_parse B hB (64 / B) (toU64 x), List.reverse_reverse]

/-- The accumulation loop of the unpackers: appending with the 4096-entry cap
is taking the first 4096 entries of the concatenation. -/
theorem foldl_cap_eq (ls : List (List Nat)) : ∀ (acc : List Nat),
    ls.foldl (fun a e => a ++ e.take (4096 - a.length)) acc
    = acc ++ ls.flatten.take (4096 - acc.length) := by
  induction ls with
  | nil => intro acc; simp
  | cons e ls ih =>
    intro acc
    rw [List.foldl_cons, ih, List.flatten_cons, List.take_append_eq_append_take,
      ← List.append_assoc]
    congr 1
    congr 1
    simp only [List.length_append, List.length_take]
    omega

/-- Index arithmetic for the concatenation of equal-length blocks. -/
theorem flatten_uniform_getD (g : Int → Nat → Nat) (q : Nat) (hq : 0 < q) :
    ∀ (L : List Int) (i : Nat), i < L.length * q →
      ((L.map (fun x => (List.range q).map (g x))).flatten).getD i 0
      = g (L.getD (i / q) 0) (i % q) := by
  intro L
  induction L with
  | nil => intro i hi; simp at hi
  | cons x L ih =>
    intro i hi
    rw [List.map_cons, List.flatten_cons]
    by_cases hiq : i < q
    · rw [List.getD_append _ _ _ _ (by simp [hiq])]
      rw [List.getD_eq_getElem _ _ (by simp [hiq])]
      simp only [List.getElem_map, List.getElem_range]
      rw [Nat.div_eq_of_lt hiq, Nat.mod_eq_of_lt hiq]
      simp
    · have hq' : q ≤ i := by omega
      obtain ⟨j, rfl⟩ : ∃ j, i = q + j := ⟨i - q, by omega⟩
      rw [List.getD_append_right _ _ _ _ (by simp)]
      simp only [List.length_map, List.length_range, Nat.add_sub_cancel_left]
      have hj : j < L.length * q := by
        simp only [List.length_cons, Nat.succ_mul] at hi
        omega
      rw [ih j hj]
      rw [Nat.add_comm q j, Nat.add_div_right _ hq, Nat.add_mod_right]
      simp

theorem sum_replicate_nat (n q : Nat) : (List.replicate n q).sum = n * q := by
  induction n with
  | zero => simp
  | succ n ih => simp [List.replicate_succ, ih, Nat.succ_mul]; omega

/-- The extraction formula of the packed format: entry `k` of a long is its
bits `[k*B, (k+1)*B)`, i.e. `(long >> (k*B)) & ((1 << B) - 1)` in arithmetic
form, applied to the long holding global entry `i`. -/
def packedEntry (B : Nat) (L : List Int) (i : Nat) : Nat :=
  toU64 (L.getD (i / (64 / B)) 0) / 2 ^ (B * (i % (64 / B))) % 2 ^ B

theorem fold_indecies_eq (B : Nat) (L : List Int) :
    L.foldl (fun acc x => acc ++ (decodeLong B x).take (4096 - acc.length)) []
    = ((L.map (decodeLong B)).flatten).take 4096 := by
  rw [← List.foldl_map (decodeLong B) (fun a e => a ++ e.take (4096 - a.length)) L []]
  rw [foldl_cap_eq]
  simp

theorem flatten_decodeLong_length (B : Nat) (hB : 1 ≤ B) (L : List Int) :
    ((L.map (decodeLong B)).flatten).length = L.length * (64 / B) := by
  rw [List.length_flatten, List.map_map]
  have hconst : (List.length ∘ decodeLong B) = fun (_ : Int) => 64 / B := by
    funext x
    simp [Function.comp, decodeLong_eq B hB x]
  rw [hconst, List.map_const', sum_replicate_nat]

theorem flatten_decodeLong_getD (B : Nat) (hB : 1 ≤ B) (L : List Int) (i : Nat)
    (hi : i < L.length * (64 / B)) :
    ((L.map (decodeLong B)).flatten).getD i 0 = packedEntry B L i := by
  have hq : 0 < 64 / B := by
    rcases Nat.eq_zero_or_pos (64 / B) with h | h
    · rw [h, Nat.mul_zero] at hi; omega
    · exact h
  have hmap : L.map (decodeLong B)
      = L.map (fun x => (List.range (64 / B)).map
          (fun k => toU64 x / 2 ^ (B * k) % 2 ^ B)) := by
    apply List.map_congr_left
    intro x _
    exact decodeLong_eq B hB x
  rw [hmap, flatten_uniform_getD (fun x k => toU64 x / 2 ^ (B * k) % 2 ^ B) (64 / B) hq L i hi]
  rfl

theorem flatten_decodeLong_getElem (B : Nat) (hB : 1 ≤ B) (L : List Int) (i : Nat)
    (hif : i < L.length * (64 / B))
    (h : i < ((L.map (decodeLong B)).flatten).length) :
    ((L.map (decodeLong B)).flatten)[i] = packedEntry B L i := by
  rw [show ((L.map (decodeLong B)).flatten)[i]
      = ((L.map (decodeLong B)).flatten).getD i 0 from by
    rw [List.getD_eq_getElem?_getD, List.getElem?_eq_getElem h]; rfl]
  exact flatten_decodeLong_getD B hB L i hif

/-- Full characterization of `process_block_data`: it succeeds exactly when
the long array carries at least 4096 entries, and then the grid is the first
4096 packed entries in long order, low bits first within each long. -/
theorem process_block_data_eq (B : Nat) (L : List Int) (hB : 1 ≤ B) :
    process_block_data B L
    = if 4096 ≤ L.length * (64 / B)
      then some ((List.range 4096).map (packedEntry B L))
      else none := by
  rw [process_block_data]
  simp only [fold_indecies_eq B L]
  have hlen : (((L.map (decodeLong B)).flatten).take 4096).length
      = min 4096 (L.length * (64 / B)) := by
    rw [List.length_take, flatten_decodeLong_length B hB L]
  by_cases h : 4096 ≤ L.length * (64 / B)
  · rw [if_pos h]
    have h4096 : (((L.map (decodeLong B)).flatten).take 4096).length = 4096 := by
      rw [hlen]; omega
    rw [if_pos h4096]
    refine congrArg some ?_
    apply List.ext_getElem (by simp [h4096])
    intro i hi₁ hi₂
    have hi : i < 4096 := by simpa [h4096] using hi₁
    have hif : i < L.length * (64 / B) := by omega
    rw [List.getElem_take]
    rw [flatten_decodeLong_getElem B hB L i hif (by
      rw [flatten_decodeLong_length B hB L]; omega)]
    simp
  · rw [if_neg h]
    have hne : (((L.map (decodeLong B)).flatten).take 4096).length ≠ 4096 := by
      rw [hlen]; omega
    rw [if_neg hne]

/-- Full characterization of `process_biome_data`: the copied 4096-entry push
cap together with the final 64-entry check means it succeeds exactly when the
long array carries exactly 64 entries. -/
theorem process_biome_data_eq (B : Nat) (L : List Int) (hB : 1 ≤ B) :
    process_biome_data B L
    = if L.length * (64 / B) = 64
      then some ((List.range 64).map (packedEntry B L))
      else none := by
  rw [process_biome_data]
  simp only [fold_indecies_eq B L]
  have hlen : (((L.map (decodeLong B)).flatten).take 4096).length
      = min 4096 (L.length * (64 / B)) := by
    rw [List.length_take, flatten_decodeLong_length B hB L]
  by_cases h : L.length * (64 / B) = 64
  · rw [if_pos h]
    have h64 : (((L.map (decodeLong B)).flatten).take 4096).length = 64 := by
      rw [hlen]; omega
    rw [if_pos h64]
    refine congrArg some ?_
    have htake : ((L.map (decodeLong B)).flatten).take 4096
        = (L.map (decodeLong B)).flatten := by
      apply List.take_of_length_le
      rw [flatten_decodeLong_length B hB L]; omega
    rw [htake]
    apply List.ext_getElem (by rw [flatten_decodeLong_length B hB L]; simp [h])
    intro i hi₁ hi₂
    have hif : i < L.length * (64 / B) := by
      rw [flatten_decodeLong_length B hB L] at hi₁; omega
    rw [flatten_decodeLong_getElem B hB L i hif hi₁]
    simp
  · rw [if_neg h]
    have hne : (((L.map (decodeLong B)).flatten).take 4096).length ≠ 64 := by
      rw [hlen]; omega
    rw [if_neg hne]

theorem packedEntry_mul_comm (B : Nat) (L : List Int) (i : Nat) :
    packedEntry B L i
    = toU64 (L.getD (i / (64 / B)) 0) / 2 ^ ((i % (64 / B)) * B) % 2 ^ B := by
  rw [packedEntry, Nat.mul_comm]

theorem packedEntry_zero (B m i : Nat) :
    packedEntry B (List.replicate m (0 : Int)) i = 0 := by
  have hz : (List.replicate m (0 : Int)).getD (i / (64 / B)) 0 = 0 := by
    rw [List.getD_eq_getElem?_getD, List.getElem?_replicate]
    split <;> rfl
  simp [packedEntry, hz, toU64]

theorem map_packedEntry_zero (B n m : Nat) :
    (List.range n).map (packedEntry B (List.replicate m (0 : Int)))
    = List.replicate n 0 := by
  rw [show packedEntry B (List.replicate m (0 : Int)) = fun _ => 0 from
    funext (packedEntry_zero B m)]
  rw [List.map_const', List.length_range]

theorem packed_map_getD_lt (B : Nat) (L : List Int) (n i : Nat) :
    ((List.range n).map (packedEntry B L)).getD i 0 < 2 ^ B := by
  by_cases hi : i < n
  · rw [List.getD_eq_getElem?_getD,
      List.getElem?_eq_getElem (by simpa using hi)]
    simp only [Option.getD_some, List.getElem_map, List.getElem_range]
    exact Nat.mod_lt _ (Nat.two_pow_pos B)
  · rw [List.getD_eq_getElem?_getD, List.getElem?_eq_none (by simpa using hi)]
    simp only [Option.getD_none]
    exact Nat.two_pow_pos B

end UnpackerLemmas

/-- C1: for every long array and every bits-per-entry `B ∈ [4, 12]`, the
decoded block grid reads entries in array order of the longs; within each
64-bit long, entry `k` equals `(long >> (k*B)) & ((1 << B) - 1)` (in
arithmetic form `/ 2 ^ (k*B) % 2 ^ B` on the two's-complement bit pattern),
so entries are packed from the low-order bits upward, never span long
boundaries, and the high `64 % B` padding bits of each long are ignored. -/
theorem claim_C1_block_grid_unpacker (B : Nat) (L : List Int) (data : List Nat)
    (h4 : 4 ≤ B) (h12 : B ≤ 12) (h : process_block_data B L = some data) :
    data = (List.range 4096).map (fun i =>
      toU64 (L.getD (i / (64 / B)) 0) / 2 ^ ((i % (64 / B)) * B) % 2 ^ B) := by
  rw [process_block_data_eq B L (by omega)] at h
  by_cases hc : 4096 ≤ L.length * (64 / B)
  · rw [if_pos hc] at h
    have hdata := (Option.some_inj.mp h).symm
    rw [hdata]
    exact List.map_congr_left fun i _ => packedEntry_mul_comm B L i
  · rw [if_neg hc] at h
    exact absurd h (by simp)

/-- Witness for C1 at `B = 4` and a 256-long all-zero array: the unpack
succeeds and the grid is the formula grid. -/
theorem claim_C1_block_grid_unpacker_witness :
    process_block_data 4 (List.replicate 256 (0 : Int))
      = some (List.replicate 4096 0)
    ∧ List.replicate 4096 0 = (List.range 4096).map (fun i =>
        toU64 ((List.replicate 256 (0 : Int)).getD (i / (64 / 4)) 0)
          / 2 ^ ((i % (64 / 4)) * 4) % 2 ^ 4) := by
  have hsome : process_block_data 4 (List.replicate 256 (0 : Int))
      = some (List.replicate 4096 0) := by
    rw [process_block_data_eq 4 _ (by omega), if_pos (by simp)]
    exact congrArg some (map_packedEntry_zero 4 4096 256)
  exact ⟨hsome,
    claim_C1_block_grid_unpacker 4 _ _ (by omega) (by omega) hsome⟩

/-- C3 fails on the code: there is no palette-bound check at all. At palette
size `P = 2` the computed width is `B = 4` and a long with low nibble `0b1111`
decodes to the entry `15 ≥ 2`; no `PaletteIndexOutOfRange` error exists in
the code. This closed theorem exhibits that input. -/
theorem claim_C3_palette_range_counterexample :
    block_bits_per_entry 2 = 4
    ∧ (process_block_data (block_bits_per_entry 2)
        ((15 : Int) :: List.replicate 255 0)).map (fun data => data.getD 0 0)
      = some 15
    ∧ ¬ (15 : Nat) < 2 := by
  have hbits : block_bits_per_entry 2 = 4 := by decide
  refine ⟨hbits, ?_, by omega⟩
  rw [hbits, process_block_data_eq 4 _ (by omega), if_pos (by simp)]
  rw [Option.map_some']
  refine congrArg some ?_
  rw [List.getD_eq_getElem?_getD, List.getElem?_eq_getElem (by simp)]
  simp only [Option.getD_some, List.getElem_map, List.getElem_range]
  decide

/-- C3 amended: each unpacker, when it succeeds, produces exactly its cell
count of entries (4096 for blocks, 64 for biomes), each entry lying in
`[0, 2 ^ B)`; the palette size `P` itself is never consulted, no entry is
checked against it, and no `PaletteIndexOutOfRange` error exists. -/
theorem claim_C3_grid_entry_bounds :
    (∀ (B : Nat) (L : List Int) (data : List Nat), 1 ≤ B →
      process_block_data B L = some data →
      data.length = 4096 ∧ ∀ i, data.getD i 0 < 2 ^ B)
    ∧ (∀ (B : Nat) (L : List Int) (data : List Nat), 1 ≤ B →
      process_biome_data B L = some data →
      data.length = 64 ∧ ∀ i, data.getD i 0 < 2 ^ B) := by
  constructor
  · intro B L data hB h
    rw [process_block_data_eq B L hB] at h
    by_cases hc : 4096 ≤ L.length * (64 / B)
    · rw [if_pos hc] at h
      have hdata := (Option.some_inj.mp h).symm
      subst hdata
      exact ⟨by simp, fun i => packed_map_getD_lt B L 4096 i⟩
    · rw [if_neg hc] at h
      exact absurd h (by simp)
  · intro B L data hB h
    rw [process_biome_data_eq B L hB] at h
    by_cases hc : L.length * (64 / B) = 64
    · rw [if_pos hc] at h
      have hdata := (Option.some_inj.mp h).symm
      subst hdata
      exact ⟨by simp, fun i => packed_map_getD_lt B L 64 i⟩
    · rw [if_neg hc] at h
      exact absurd h (by simp)

/-- Witness for the amended C3, at concrete all-zero inputs for both the
block unpacker (`B = 4`) and the biome unpacker (`B = 1`). -/
theorem claim_C3_grid_entry_bounds_witness :
    (1 ≤ 4
      ∧ process_block_data 4 (List.replicate 256 (0 : Int))
          = some (List.replicate 4096 0)
      ∧ (List.replicate 4096 (0 : Nat)).length = 4096
      ∧ ∀ i, (List.replicate 4096 (0 : Nat)).getD i 0 < 2 ^ 4)
    ∧ (1 ≤ 1
      ∧ process_biome_data 1 (List.replicate 1 (0 : Int))
          = some (List.replicate 64 0)
      ∧ (List.replicate 64 (0 : Nat)).length = 64
      ∧ ∀ i, (List.replicate 64 (0 : Nat)).getD i 0 < 2 ^ 1) := by
  have hblock : process_block_data 4 (List.replicate 256 (0 : Int))
      = some (List.replicate 4096 0) := by
    rw [process_block_data_eq 4 _ (by omega), if_pos (by simp)]
    exact congrArg some (map_packedEntry_zero 4 4096 256)
  have hbiome : process_biome_data 1 (List.replicate 1 (0 : Int))
      = some (List.replicate 64 0) := by
    rw [process_biome_data_eq 1 _ (by omega), if_pos (by simp)]
    exact congrArg some (map_packedEntry_zero 1 64 1)
  obtain ⟨hl1, hb1⟩ :=
    claim_C3_grid_entry_bounds.1 4 (List.replicate 256 (0 : Int)) _ (by omega) hblock
  obtain ⟨hl2, hb2⟩ :=
    claim_C3_grid_entry_bounds.2 1 (List.replicate 1 (0 : Int)) _ (by omega) hbiome
  exact ⟨⟨by omega, hblock, hl1, hb1⟩, ⟨by omega, hbiome, hl2, hb2⟩⟩

/-! ## `chunk.rs`: light nibble expansion (`process_lights`) -/

/-- The loop of `Chunk::process_lights` (`chunk.rs:546-560`): over the
enumerated bytes, slot `index*2` receives `(byte >> 4) & 0x0F` (the high
nibble) and slot `index*2+1` receives `byte & 0x0F` (the low nibble). -/
def lightsFold (byte_array : List Nat) : List Nat :=
  byte_array.enum.foldl
    (fun block_lights p =>
      (block_lights.set (p.1 * 2) (p.2 / 16 % 16)).set (p.1 * 2 + 1) (p.2 % 16))
    (List.replicate 4096 0)

/-- `Chunk::process_lights`: the writes index a fixed `[u8; 4096]`, so an
input longer than 2048 bytes panics (modelled `none`). -/
def process_lights (byte_array : List Nat) : Option (List Nat) :=
  if 2048 < byte_array.length then none else some (lightsFold byte_array)

section LightsLemmas

theorem foldl_set2_length (el : List (Nat × Nat)) : ∀ (acc : List Nat),
    (el.foldl (fun a p => (a.set (p.1 * 2) (p.2 / 16 % 16)).set (p.1 * 2 + 1) (p.2 % 16))
      acc).length = acc.length := by
  induction el with
  | nil => intro acc; rfl
  | cons p el ih => intro acc; rw [List.foldl_cons, ih]; simp

theorem lightsFold_length (l : List Nat) : (lightsFold l).length = 4096 := by
  rw [lightsFold, foldl_set2_length]
  rw [List.length_replicate]

theorem lightsFold_getD (l : List Nat) (hlen : l.length ≤ 2048) :
    ∀ i, i < l.length →
      (lightsFold l).getD (2 * i) 0 = l.getD i 0 / 16 % 16
      ∧ (lightsFold l).getD (2 * i + 1) 0 = l.getD i 0 % 16 := by
  induction l using List.reverseRecOn with
  | nil => intro i hi; simp at hi
  | append_singleton l b ih =>
    have hlen' : l.length ≤ 2047 := by
      simp only [List.length_append, List.length_singleton] at hlen
      omega
    have hfold : lightsFold (l ++ [b])
        = ((lightsFold l).set (l.length * 2) (b / 16 % 16)).set
            (l.length * 2 + 1) (b % 16) := by
      rw [lightsFold, List.enum_append, List.foldl_append]
      rfl
    have hF : (lightsFold l).length = 4096 := lightsFold_length l
    intro i hi
    simp only [List.length_append, List.length_singleton] at hi
    by_cases hil : i < l.length
    · have hgb : (l ++ [b]).getD i 0 = l.getD i 0 :=
        List.getD_append l [b] 0 i hil
      have h1 : (lightsFold (l ++ [b])).getD (2 * i) 0
          = (lightsFold l).getD (2 * i) 0 := by
        rw [hfold, List.getD_eq_getElem?_getD,
          List.getElem?_set_ne (by omega), List.getElem?_set_ne (by omega),
          ← List.getD_eq_getElem?_getD]
      have h2 : (lightsFold (l ++ [b])).getD (2 * i + 1) 0
          = (lightsFold l).getD (2 * i + 1) 0 := by
        rw [hfold, List.getD_eq_getElem?_getD,
          List.getElem?_set_ne (by omega), List.getElem?_set_ne (by omega),
          ← List.getD_eq_getElem?_getD]
      rw [h1, h2, hgb]
      exact ih (by omega) i hil
    · have hieq : i = l.length := by omega
      subst hieq
      have hgb : (l ++ [b]).getD l.length 0 = b := by
        rw [List.getD_append_right l [b] 0 l.length le_rfl, Nat.sub_self]
        rfl
      have e1 : 2 * l.length = l.length * 2 := Nat.mul_comm 2 l.length
      constructor
      · rw [e1, hfold, List.getD_eq_getElem?_getD,
          List.getElem?_set_ne (by omega),
          List.getElem?_set_self (by rw [hF]; omega), hgb]
        rfl
      · rw [e1, hfold, List.getD_eq_getElem?_getD,
          List.getElem?_set_self (by rw [List.length_set, hF]; omega), hgb]
        rfl

end LightsLemmas

/-- C5 fails on the code as written (low nibble claimed first); the amended
claim, which the code satisfies, is high nibble first: for every 2048-byte
light array, slot `2*i` receives `(byte >> 4) & 0x0F` and slot `2*i+1`
receives `byte & 0x0F`. -/
theorem claim_C5_light_nibbles (byte_array out : List Nat)
    (hlen : byte_array.length = 2048) (h : process_lights byte_array = some out)
    (i : Nat) (hi : i < 2048) :
    out.getD (2 * i) 0 = byte_array.getD i 0 / 16 % 16
    ∧ out.getD (2 * i + 1) 0 = byte_array.getD i 0 % 16 := by
  rw [process_lights, if_neg (by omega)] at h
  have hout := (Option.some_inj.mp h).symm
  subst hout
  exact lightsFold_getD byte_array (by omega) i (by omega)

/-- Witness for the amended C5 at a concrete 2048-byte array of `0x12`s. -/
theorem claim_C5_light_nibbles_witness :
    (List.replicate 2048 18).length = 2048
    ∧ process_lights (List.replicate 2048 18)
        = some (lightsFold (List.replicate 2048 18))
    ∧ ((lightsFold (List.replicate 2048 18)).getD (2 * 0) 0
          = (List.replicate 2048 18).getD 0 0 / 16 % 16
        ∧ (lightsFold (List.replicate 2048 18)).getD (2 * 0 + 1) 0
          = (List.replicate 2048 18).getD 0 0 % 16) := by
  have hsome : process_lights (List.replicate 2048 18)
      = some (lightsFold (List.replicate 2048 18)) := by
    rw [process_lights, if_neg (by rw [List.length_replicate]; omega)]
  exact ⟨List.length_replicate 2048 18, hsome,
    claim_C5_light_nibbles _ _ (List.length_replicate 2048 18) hsome 0 (by omega)⟩

/-- C5 as stated is false on the code: for the 2048-byte array of `0x12`s the
claim predicts slot 0 holds the low nibble `0x12 & 0x0F = 2`, but the code
stores the high nibble `1` there. -/
theorem claim_C5_counterexample :
    (process_lights (List.replicate 2048 18)).map (fun out => out.getD 0 0)
      = some 1
    ∧ (18 : Nat) % 16 = 2
    ∧ ¬ (1 : Nat) = 2 := by
  refine ⟨?_, by omega, by omega⟩
  rw [process_lights, if_neg (by rw [List.length_replicate]; omega), Option.map_some']
  refine congrArg some ?_
  have h := (lightsFold_getD (List.replicate 2048 18)
    (by rw [List.length_replicate]) 0 (by rw [List.length_replicate]; omega)).1
  rw [Nat.mul_zero] at h
  rw [h]
  rw [List.getD_eq_getElem?_getD, List.getElem?_replicate, if_pos (by omega)]
  rfl

/-! ## `chunk.rs`: chunk frame decompression (`Chunk::decompress`) -/

/-- The big-endian `u32` length field of a chunk frame (bytes 0-3). -/
def frame_size (bytes : List Nat) : Nat :=
  beNat [bytes.getD 0 0, bytes.getD 1 0, bytes.getD 2 0, bytes.getD 3 0]

/-- The slice `Chunk::decompress` (`chunk.rs:93-129`) hands onward:
`raw_bytes = bytes[5 .. 5 + size]` — `size` bytes, not `size - 1`.
Out-of-bounds slicing panics (`none`). -/
def decompress_raw_slice (bytes : List Nat) : Option (List Nat) :=
  if 5 + frame_size bytes ≤ bytes.length then
    some ((bytes.drop 5).take (frame_size bytes))
  else none

/-- What `Chunk::decompress` does with the input, up to the external `flate2`
decoders (whose output is not modelled): which decoder is selected and what
bytes it receives, or the bytes returned as-is. -/
inductive DecompressOutcome where
  | gzipOf (raw : List Nat)
  | zlibOf (raw : List Nat)
  | passthrough (bytes : List Nat)
deriving DecidableEq

/-- The dispatch of `Chunk::decompress`: compression byte 1 hands `raw_bytes`
to the gzip decoder, 2 to the zlib decoder, and every other byte (the `_`
arm, which includes 3) returns the entire input vector unchanged. -/
def decompress_dispatch (bytes : List Nat) : Option DecompressOutcome :=
  match decompress_raw_slice bytes with
  | none => none
  | some raw_bytes =>
    let compression_type := bytes.getD 4 0
    if compression_type = 1 then some (DecompressOutcome.gzipOf raw_bytes)
    else if compression_type = 2 then some (DecompressOutcome.zlibOf raw_bytes)
    else some (DecompressOutcome.passthrough bytes)

/-- C4 fails on the code: the module header of `chunk.rs` documents the frame
as `length` counting the compression byte, with `length - 1` payload bytes,
but `decompress` slices `bytes[5 .. 5 + length]` — `length` bytes. At the
frame `00 00 00 02 02 AB CD` the decompressor receives both `AB` and `CD`,
one byte past the documented payload. -/
theorem claim_C4_frame_slice_evaluation :
    decompress_raw_slice [0, 0, 0, 2, 2, 171, 205] = some [171, 205]
    ∧ ([171, 205] : List Nat).length = frame_size [0, 0, 0, 2, 2, 171, 205]
    ∧ ¬ ([171, 205] : List Nat).length
        = frame_size [0, 0, 0, 2, 2, 171, 205] - 1 := by
  decide

/-- C6 fails on the code: for compression byte 3 the whole frame (header
included) is returned, not the payload; and an unknown byte such as 7 also
returns the whole frame instead of failing — no `UnknownCompression` error
exists anywhere in the code. -/
theorem claim_C6_counterexample :
    decompress_dispatch [0, 0, 0, 1, 3, 170]
      = some (DecompressOutcome.passthrough [0, 0, 0, 1, 3, 170])
    ∧ ¬ decompress_dispatch [0, 0, 0, 1, 3, 170]
        = some (DecompressOutcome.passthrough [170])
    ∧ decompress_dispatch [0, 0, 0, 1, 7, 170]
      = some (DecompressOutcome.passthrough [0, 0, 0, 1, 7, 170]) := by
  decide

/-- C6 amended: byte 1 selects gzip and byte 2 selects zlib, each receiving
`bytes[5 .. 5 + length]`; every other compression byte — 3 and unknown values
alike — returns the entire input frame unchanged, and no `UnknownCompression`
error is ever produced. -/
theorem claim_C6_dispatch (bytes : List Nat)
    (h : 5 + frame_size bytes ≤ bytes.length) :
    (bytes.getD 4 0 = 1 → decompress_dispatch bytes
      = some (DecompressOutcome.gzipOf ((bytes.drop 5).take (frame_size bytes))))
    ∧ (bytes.getD 4 0 = 2 → decompress_dispatch bytes
      = some (DecompressOutcome.zlibOf ((bytes.drop 5).take (frame_size bytes))))
    ∧ (¬ bytes.getD 4 0 = 1 → ¬ bytes.getD 4 0 = 2 → decompress_dispatch bytes
      = some (DecompressOutcome.passthrough bytes)) := by
  have hslice : decompress_raw_slice bytes
      = some ((bytes.drop 5).take (frame_size bytes)) := by
    rw [decompress_raw_slice, if_pos h]
  refine ⟨fun h1 => ?_, fun h2 => ?_, fun h1 h2 => ?_⟩
  · unfold decompress_dispatch
    rw [hslice, List.getD_eq_getElem?_getD] at *
    simp [h1]
  · unfold decompress_dispatch
    rw [hslice, List.getD_eq_getElem?_getD] at *
    simp [h2]
  · unfold decompress_dispatch
    rw [hslice, List.getD_eq_getElem?_getD] at *
    simp [h1, h2]

/-- Witness for the amended C6 at a one-byte zlib frame. -/
theorem claim_C6_dispatch_witness :
    5 + frame_size [0, 0, 0, 1, 2, 9] ≤ ([0, 0, 0, 1, 2, 9] : List Nat).length
    ∧ (([0, 0, 0, 1, 2, 9] : List Nat).getD 4 0 = 2 →
      decompress_dispatch [0, 0, 0, 1, 2, 9]
        = some (DecompressOutcome.zlibOf
            ((([0, 0, 0, 1, 2, 9] : List Nat).drop 5).take
              (frame_size [0, 0, 0, 1, 2, 9])))) :=
  ⟨by decide, (claim_C6_dispatch [0, 0, 0, 1, 2, 9] (by decide)).2.1⟩

/-! ## `chunk.rs`: top-level chunk projection (`Chunk::process_chunk`) -/

/-- The child names `Chunk::process_chunk` (`chunk.rs:131-190`) matches
explicitly, in source order; every other name is pushed onto `missing`.
The empty name arm handles End tags. -/
def knownChunkFields : List String :=
  [r"DataVersion", r"xPos", r"yPos", r"zPos", r"Status", r"LastUpdate",
   r"sections", r"structures", r"entities", r"Heightmaps", r"Lights",
   r"isLightOn", r"PostProcessing", r"CarvingMasks", r"block_entities",
   r"block_ticks", r"fluid_ticks", r"InhabitedTime", r""]

/-- The `missing` list collected by `process_chunk` over the root compound's
child names (the field assignments of the known arms do not affect it). -/
def process_chunk_missing (names : List String) : List String :=
  names.filter (fun name => !(knownChunkFields.contains name))

/-- The check `process_chunk` runs after its dispatch loop
(`chunk.rs:184-187`): print the collected `missing` names and call
`exit(42069)` (modelled `none`) whenever any were collected. Only this
check is modelled: the known-name arms invoke `process_sections`,
`process_structures` and the payload accessors, which have abort paths of
their own (e.g. `chunk.rs:234-237`), so nothing here asserts that
projection completes when `missing` is empty. -/
def process_chunk_missing_check (missing : List String) : Option Unit :=
  if 0 < missing.length then none else some ()

/-- C7 fails on the code: at a root whose children are named `DataVersion`
and `Bogus`, the unknown name is collected into `missing`, and the final
check of `process_chunk` then terminates the whole process — projection is
aborted, not completed with a warning. -/
theorem claim_C7_counterexample :
    process_chunk_missing [r"DataVersion", r"Bogus"] = [r"Bogus"]
    ∧ process_chunk_missing_check
        (process_chunk_missing [r"DataVersion", r"Bogus"]) = none := by
  constructor
  · decide
  · decide

/-- C7 amended: an unknown top-level child name is collected into the
`missing` list and reported, and then `process_chunk` exits: whenever any
top-level child name is unknown, projection is aborted rather than
completed. (Nothing is claimed about roots without unknown names: the
known-name arms can abort for reasons of their own.) -/
theorem claim_C7_unknown_fields_fatal (names : List String) (name : String)
    (hmem : name ∈ names)
    (hunk : knownChunkFields.contains name = false) :
    name ∈ process_chunk_missing names
    ∧ process_chunk_missing_check (process_chunk_missing names) = none := by
  have hmiss : name ∈ process_chunk_missing names := by
    rw [process_chunk_missing]
    exact List.mem_filter.mpr ⟨hmem, by rw [hunk]; rfl⟩
  refine ⟨hmiss, ?_⟩
  rw [process_chunk_missing_check,
    if_pos (List.length_pos.mpr (List.ne_nil_of_mem hmiss))]

/-- Witness for the amended C7 at the single unknown name `Bogus`. -/
theorem claim_C7_unknown_fields_fatal_witness :
    (r"Bogus" : String) ∈ ([r"Bogus"] : List String)
    ∧ knownChunkFields.contains (r"Bogus") = false
    ∧ ((r"Bogus" : String) ∈ process_chunk_missing [r"Bogus"]
      ∧ process_chunk_missing_check (process_chunk_missing [r"Bogus"]) = none) :=
  ⟨by decide, by decide,
    claim_C7_unknown_fields_fatal [r"Bogus"] (r"Bogus") (by decide) (by decide)⟩

/-! ## `region.rs`: the region index and which slots become chunks -/

/-- One slot of the region location/timestamp header, as parsed by
`Region::load_chunks` (`region.rs:83-141`). The `u32` multiplication
`u32::from_be_bytes(slice) * 4096` wraps (release build), hence `% 2 ^ 32`. -/
structure RegionHeaderM where
  offset : Nat
  updated : Nat
  sectors : Nat
  size : Nat
deriving DecidableEq

/-- Parse slot `i` of the two 4096-byte header tables. -/
def parse_region_header (location upd : List Nat) (i : Nat) : RegionHeaderM :=
  { offset := (beNat [0, location.getD (4 * i) 0, location.getD (4 * i + 1) 0,
        location.getD (4 * i + 2) 0] * 4096) % 2 ^ 32
  , updated := beNat [upd.getD (4 * i) 0, upd.getD (4 * i + 1) 0,
        upd.getD (4 * i + 2) 0, upd.getD (4 * i + 3) 0]
  , sectors := location.getD (4 * i + 3) 0
  , size := location.getD (4 * i + 3) 0 * 4096 }

/-- The header table built by the first loop of `load_chunks`: every one of
the 1024 slots is inserted (the non-generated-chunk skip is commented out in
the source). -/
def region_headers (location upd : List Nat) : List (Nat × RegionHeaderM) :=
  (List.range 1024).map (fun i => (i, parse_region_header location upd i))

/-- The slots for which the final loop of `load_chunks` pushes a `Chunk`:
the loop iterates the whole header map with no presence test of any kind. -/
def decoded_slot_indices (location upd : List Nat) : List Nat :=
  (region_headers location upd).map Prod.fst

/-- The presence predicate of the claim (and of the `region.rs` module
documentation): a slot is present iff both its sector offset and its sector
count are non-zero. -/
def present_slot_indices (location : List Nat) : List Nat :=
  (List.range 1024).filter (fun i =>
    (beNat [0, location.getD (4 * i) 0, location.getD (4 * i + 1) 0,
        location.getD (4 * i + 2) 0] != 0)
    && (location.getD (4 * i + 3) 0 != 0))

theorem getD_replicate_zero (n i : Nat) :
    (List.replicate n (0 : Nat)).getD i 0 = 0 := by
  rw [List.getD_eq_getElem?_getD, List.getElem?_replicate]
  split <;> rfl

theorem decoded_slot_indices_all (location upd : List Nat) :
    decoded_slot_indices location upd = List.range 1024 := by
  rw [decoded_slot_indices, region_headers, List.map_map]
  exact List.map_id _

theorem present_slot_indices_all_zero (location : List Nat)
    (h : ∀ i, location.getD i 0 = 0) :
    present_slot_indices location = [] := by
  rw [present_slot_indices]
  apply List.filter_eq_nil_iff.mpr
  intro i _
  have h0 := h (4 * i)
  have h1 := h (4 * i + 1)
  have h2 := h (4 * i + 2)
  have h3 := h (4 * i + 3)
  simp only [List.getD_eq_getElem?_getD] at h0 h1 h2 h3
  simp [beNat, h0, h1, h2, h3]

/-- C9 fails on the code: `load_chunks` decodes a chunk from every one of
the 1024 slots, with no check of offset or sector count. On a region file
whose location table is all zeros (no chunk present) the claim's present set
is empty, yet the code still processes all 1024 slots (each of which then
panics on the empty buffer in `Chunk::new`). -/
theorem claim_C9_presence_evaluation :
    decoded_slot_indices (List.replicate 4096 0) (List.replicate 4096 0)
      = List.range 1024
    ∧ present_slot_indices (List.replicate 4096 0) = []
    ∧ ¬ (List.range 1024 : List Nat) = [] := by
  refine ⟨decoded_slot_indices_all _ _,
    present_slot_indices_all_zero _ (fun i => getD_replicate_zero 4096 i),
    by simp [List.range_eq_nil]⟩

/-! ## `tag.rs`: the NBT parser (`ProtoTag`)

The byte cursor (`bytes`, `cur`) and the reading functions of
`impl ProtoTagLoader for ProtoTag` (`tag.rs:125-474`). The `cur_hist`
debugging field is bookkeeping only and is not modelled. Rust indexing and
`try_into().unwrap()` panics are modelled as `none`. -/

/-- The cursor state of a `ProtoTag`: the byte buffer and the position. -/
structure Cursor where
  bytes : List Nat
  cur : Nat
deriving DecidableEq

/-- `ProtoTag::read_bytes` (`tag.rs:169-187`): returns
`bytes[cur .. min (cur + num) len]` — TRUNCATED at the buffer end, without
any error — and always advances the cursor by the full `num`. Slicing with
`cur > len` panics (`none`); `num = 0` returns early without moving. -/
def read_bytes (num : Nat) (s : Cursor) : Option (List Nat × Cursor) :=
  if num = 0 then some ([], s)
  else if s.cur ≤ s.bytes.length then
    some ((s.bytes.drop s.cur).take (min (s.cur + num) s.bytes.length - s.cur),
      Cursor.mk s.bytes (s.cur + num))
  else none

/-- The thirteen NBT tag types plus the `Invalid` marker, as in `tag.rs`. -/
inductive TagType where
  | End | Byte | Short | Int | Long | Float | Double | ByteArray
  | String | List | Compound | IntArray | LongArray | Invalid
deriving DecidableEq

/-- `ProtoTag::tag_from_id` (`tag.rs:211-229`); `read_type` (`tag.rs:189-208`)
repeats the same id table inline. -/
def tag_from_id (id : Nat) : TagType :=
  match id with
  | 0 => TagType.End
  | 1 => TagType.Byte
  | 2 => TagType.Short
  | 3 => TagType.Int
  | 4 => TagType.Long
  | 5 => TagType.Float
  | 6 => TagType.Double
  | 7 => TagType.ByteArray
  | 8 => TagType.String
  | 9 => TagType.List
  | 10 => TagType.Compound
  | 11 => TagType.IntArray
  | 12 => TagType.LongArray
  | _ => TagType.Invalid

/-- `ProtoTag::read_type`: read one byte (`read_bytes(1)[0]`, panicking on an
empty result) and map it through the id table. -/
def read_type (s : Cursor) : Option (TagType × Cursor) :=
  match read_bytes 1 s with
  | none => none
  | some ([], _) => none
  | some (b :: _, s') => some (tag_from_id b, s')

/-- RFC 3629 UTF-8 validity, as enforced by Rust's `String::from_utf8`. -/
def validUtf8 : List Nat → Bool
  | [] => true
  | b :: rest =>
    if b < 128 then validUtf8 rest
    else if 194 ≤ b && b ≤ 223 then
      match rest with
      | c1 :: r => (128 ≤ c1 && c1 ≤ 191) && validUtf8 r
      | [] => false
    else if b = 224 then
      match rest with
      | c1 :: c2 :: r =>
        (160 ≤ c1 && c1 ≤ 191) && (128 ≤ c2 && c2 ≤ 191) && validUtf8 r
      | _ => false
    else if 225 ≤ b && b ≤ 236 then
      match rest with
      | c1 :: c2 :: r =>
        (128 ≤ c1 && c1 ≤ 191) && (128 ≤ c2 && c2 ≤ 191) && validUtf8 r
      | _ => false
    else if b = 237 then
      match rest with
      | c1 :: c2 :: r =>
        (128 ≤ c1 && c1 ≤ 159) && (128 ≤ c2 && c2 ≤ 191) && validUtf8 r
      | _ => false
    else if 238 ≤ b && b ≤ 239 then
      match rest with
      | c1 :: c2 :: r =>
        (128 ≤ c1 && c1 ≤ 191) && (128 ≤ c2 && c2 ≤ 191) && validUtf8 r
      | _ => false
    else if b = 240 then
      match rest with
      | c1 :: c2 :: c3 :: r =>
        (144 ≤ c1 && c1 ≤ 191) && (128 ≤ c2 && c2 ≤ 191)
          && (128 ≤ c3 && c3 ≤ 191) && validUtf8 r
      | _ => false
    else if 241 ≤ b && b ≤ 243 then
      match rest with
      | c1 :: c2 :: c3 :: r =>
        (128 ≤ c1 && c1 ≤ 191) && (128 ≤ c2 && c2 ≤ 191)
          && (128 ≤ c3 && c3 ≤ 191) && validUtf8 r
      | _ => false
    else if b = 244 then
      match rest with
      | c1 :: c2 :: c3 :: r =>
        (128 ≤ c1 && c1 ≤ 143) && (128 ≤ c2 && c2 ≤ 191)
          && (128 ≤ c3 && c3 ≤ 191) && validUtf8 r
      | _ => false
    else false

/-- `ProtoTag::read_utf8` (`tag.rs:231-253`): length 0 returns the empty
string without reading; otherwise read (possibly truncated) bytes and
validate them, exiting (`none`) on invalid UTF-8. -/
def read_utf8 (len : Nat) (s : Cursor) : Option (List Nat × Cursor) :=
  if len = 0 then some ([], s)
  else match read_bytes len s with
    | none => none
    | some (bytes, s') => if validUtf8 bytes then some (bytes, s') else none

/-- `read_bytes` followed by `try_into().unwrap()` into a fixed-size array:
panics (`none`) unless exactly `num` bytes came back. -/
def readExact (num : Nat) (s : Cursor) : Option (List Nat × Cursor) :=
  match read_bytes num s with
  | none => none
  | some (v, s') => if v.length = num then some (v, s') else none

/-- `ProtoTag::read_name` (`tag.rs:274-282`): a big-endian `u16` length then
that many UTF-8 bytes. -/
def read_name (s : Cursor) : Option (List Nat × Cursor) :=
  match readExact 2 s with
  | none => none
  | some (v, s') => read_utf8 (beNat v) s'

mutual
/-- `TagPayload` (`tag.rs:42-58`). Numeric payloads hold their signed value;
`Float`/`Double` hold the raw big-endian bit pattern (no float arithmetic is
performed anywhere in the parser); strings hold their UTF-8 bytes. Note the
source's `IntArray` holds `Vec<i16>` — see `read_payload`. -/
inductive TagPayload where
  | End
  | Byte (v : Int)
  | Short (v : Int)
  | Int (v : Int)
  | Long (v : Int)
  | Float (bits : Nat)
  | Double (bits : Nat)
  | ByteArray (v : List Nat)
  | String (v : List Nat)
  | List (v : List TagPayload)
  | Compound (v : List Tag)
  | IntArray (v : List Int)
  | LongArray (v : List Int)
  | Invalid

/-- `Tag` (`tag.rs:36-40`): a name and a payload. -/
inductive Tag where
  | mk (name : List Nat) (payload : TagPayload)
end

/-- The tag name. -/
def Tag.name : Tag → List Nat
  | Tag.mk n _ => n

/-- The tag payload. -/
def Tag.payload : Tag → TagPayload
  | Tag.mk _ p => p

/-- The `for _ in 0..subtag_count` loop of the `List` arm of `read_payload`:
read `n` payloads of the fixed element type with the supplied payload
reader. -/
def readListAux (rp : TagType → Cursor → Option (TagPayload × Cursor)) :
    TagType → Nat → Cursor → Option (List TagPayload × Cursor)
  | _, 0, s => some ([], s)
  | t, n + 1, s =>
    match rp t s with
    | none => none
    | some (p, s1) =>
      match readListAux rp t n s1 with
      | none => none
      | some (ps, s2) => some (p :: ps, s2)

/-- The `loop` of the `Compound` arm of `read_payload` (`tag.rs:385-441`),
with the payload reader supplied as a parameter and a fuel bound on the
number of iterations. Each iteration reads a type byte; on `End` it pushes
the terminating `Tag { name: "", payload: End }` and returns. Otherwise it
reads the child's name; a nested `Compound` child is handed to a fresh
`ProtoTag` whose `parse()` RE-READS a type byte at the current position (the
first child's type), overwriting the name when that byte is not `End` — the
source's behaviour, reproduced faithfully here. -/
def readCompoundAux (rp : TagType → Cursor → Option (TagPayload × Cursor)) :
    Nat → Cursor → Option (List Tag × Cursor)
  | 0, _ => none
  | fuel + 1, s =>
    match read_type s with
    | none => none
    | some (t, s1) =>
      if t = TagType.End then
        some ([Tag.mk [] TagPayload.End], s1)
      else
        match read_name s1 with
        | none => none
        | some (nm, s2) =>
          if t = TagType.Compound then
            match read_type s2 with
            | none => none
            | some (t2, s3) =>
              if t2 = TagType.End then
                match readCompoundAux rp fuel s3 with
                | none => none
                | some (rest, sf) => some (Tag.mk nm TagPayload.End :: rest, sf)
              else
                match read_name s3 with
                | none => none
                | some (nm2, s4) =>
                  match rp t2 s4 with
                  | none => none
                  | some (p, s5) =>
                    match readCompoundAux rp fuel s5 with
                    | none => none
                    | some (rest, sf) => some (Tag.mk nm2 p :: rest, sf)
          else
            match rp t s2 with
            | none => none
            | some (p, s3) =>
              match readCompoundAux rp fuel s3 with
              | none => none
              | some (rest, sf) => some (Tag.mk nm p :: rest, sf)

/-- `ProtoTag::read_payload` (`tag.rs:284-474`). Fixed-width payloads are
big-endian; array lengths are `i32 as usize` (`usizeOfI32`) with the `usize`
byte-count multiplication wrapping at `2 ^ 64`; `IntArray` re-chunks its
`4 * N` bytes as `chunks_exact(2)` of NATIVE-endian `i16`s and `LongArray`
uses native-endian `i64`s (little-endian here); `Invalid` exits
(`none`). -/
def readPayload : Nat → TagType → Cursor → Option (TagPayload × Cursor)
  | 0, _, _ => none
  | fuel + 1, t, s =>
    match t with
    | TagType.End => some (TagPayload.End, s)
    | TagType.Byte =>
      match readExact 1 s with
      | none => none
      | some (v, s') => some (TagPayload.Byte (toSigned 8 (beNat v)), s')
    | TagType.Short =>
      match readExact 2 s with
      | none => none
      | some (v, s') => some (TagPayload.Short (toSigned 16 (beNat v)), s')
    | TagType.Int =>
      match readExact 4 s with
      | none => none
      | some (v, s') => some (TagPayload.Int (toSigned 32 (beNat v)), s')
    | TagType.Long =>
      match readExact 8 s with
      | none => none
      | some (v, s') => some (TagPayload.Long (toSigned 64 (beNat v)), s')
    | TagType.Float =>
      match readExact 4 s with
      | none => none
      | some (v, s') => some (TagPayload.Float (beNat v), s')
    | TagType.Double =>
      match readExact 8 s with
      | none => none
      | some (v, s') => some (TagPayload.Double (beNat v), s')
    | TagType.ByteArray =>
      match readExact 4 s with
      | none => none
      | some (v, s1) =>
        match read_bytes (usizeOfI32 (beNat v)) s1 with
        | none => none
        | some (arr, s2) => some (TagPayload.ByteArray arr, s2)
    | TagType.String =>
      match readExact 2 s with
      | none => none
      | some (v, s1) =>
        match read_utf8 (beNat v) s1 with
        | none => none
        | some (str, s2) => some (TagPayload.String str, s2)
    | TagType.List =>
      match read_bytes 1 s with
      | none => none
      | some ([], _) => none
      | some (b :: _, s1) =>
        match readExact 4 s1 with
        | none => none
        | some (v, s2) =>
          match readListAux (readPayload fuel) (tag_from_id b)
              ((toSigned 32 (beNat v)).toNat) s2 with
          | none => none
          | some (ps, s3) => some (TagPayload.List ps, s3)
    | TagType.Compound =>
      match readCompoundAux (readPayload fuel) fuel s with
      | none => none
      | some (tags, s') => some (TagPayload.Compound tags, s')
    | TagType.IntArray =>
      match readExact 4 s with
      | none => none
      | some (v, s1) =>
        match read_bytes ((usizeOfI32 (beNat v) * 4) % 2 ^ 64) s1 with
        | none => none
        | some (arr, s2) =>
          some (TagPayload.IntArray
            ((chunksExact 2 arr).map (fun c => toSigned 16 (leNat c))), s2)
    | TagType.LongArray =>
      match readExact 4 s with
      | none => none
      | some (v, s1) =>
        match read_bytes ((usizeOfI32 (beNat v) * 8) % 2 ^ 64) s1 with
        | none => none
        | some (arr, s2) =>
          some (TagPayload.LongArray
            ((chunksExact 8 arr).map (fun c => toSigned 64 (leNat c))), s2)
    | TagType.Invalid => none

/-- `ProtoTag::new` + `parse()` (`tag.rs:126-153`), as consumed by
`Tag::new`: read the type; `End` keeps the empty name; otherwise read the
name and then the payload. -/
def parseTag (fuel : Nat) (bytes : List Nat) : Option Tag :=
  match read_type (Cursor.mk bytes 0) with
  | none => none
  | some (t, s1) =>
    if t = TagType.End then
      match readPayload fuel TagType.End s1 with
      | none => none
      | some (p, _) => some (Tag.mk [] p)
    else
      match read_name s1 with
      | none => none
      | some (nm, s2) =>
        match readPayload fuel t s2 with
        | none => none
        | some (p, _) => some (Tag.mk nm p)

section CursorLemmas

theorem read_bytes_eq (n : Nat) (s : Cursor) (h : s.cur ≤ s.bytes.length) :
    read_bytes n s
    = some ((s.bytes.drop s.cur).take n, Cursor.mk s.bytes (s.cur + n)) := by
  rw [read_bytes]
  by_cases h0 : n = 0
  · subst h0
    rw [if_pos rfl]
    rfl
  · rw [if_neg h0, if_pos h]
    refine congrArg some ?_
    refine congrArg (fun v => (v, Cursor.mk s.bytes (s.cur + n))) ?_
    rcases le_or_lt (s.cur + n) s.bytes.length with hle | hlt
    · rw [min_eq_left hle]
      congr 1
      omega
    · rw [min_eq_right (by omega)]
      have hdl : (s.bytes.drop s.cur).length = s.bytes.length - s.cur :=
        List.length_drop s.cur s.bytes
      rw [List.take_of_length_le (le_of_eq hdl),
        List.take_of_length_le (by rw [hdl]; omega)]

theorem read_bytes_none (n : Nat) (s : Cursor) (h : s.bytes.length < s.cur)
    (hn : 0 < n) : read_bytes n s = none := by
  rw [read_bytes, if_neg (by omega), if_neg (by omega)]

end CursorLemmas

section CompoundLemmas

theorem tag_from_id_end_iff (b : Nat) : tag_from_id b = TagType.End ↔ b = 0 := by
  match b with
  | 0 => simp [tag_from_id]
  | 1 => simp [tag_from_id]
  | 2 => simp [tag_from_id]
  | 3 => simp [tag_from_id]
  | 4 => simp [tag_from_id]
  | 5 => simp [tag_from_id]
  | 6 => simp [tag_from_id]
  | 7 => simp [tag_from_id]
  | 8 => simp [tag_from_id]
  | 9 => simp [tag_from_id]
  | 10 => simp [tag_from_id]
  | 11 => simp [tag_from_id]
  | 12 => simp [tag_from_id]
  | n + 13 => simp [tag_from_id]

theorem read_type_eq_of_lt (s : Cursor) (hlt : s.cur < s.bytes.length) :
    read_type s
    = some (tag_from_id (s.bytes.getD s.cur 0), Cursor.mk s.bytes (s.cur + 1)) := by
  unfold read_type
  rw [read_bytes_eq 1 s (by omega)]
  have hdrop : s.bytes.drop s.cur
      = s.bytes.getD s.cur 0 :: s.bytes.drop (s.cur + 1) := by
    rw [List.drop_eq_getElem_cons hlt]
    congr 1
    rw [List.getD_eq_getElem?_getD, List.getElem?_eq_getElem hlt]
    rfl
  rw [hdrop]
  rfl

theorem read_type_none_of_ge (s : Cursor) (hge : s.bytes.length ≤ s.cur) :
    read_type s = none := by
  unfold read_type
  rcases eq_or_lt_of_le hge with heq | hlt
  · rw [read_bytes_eq 1 s (le_of_eq heq.symm)]
    rw [List.drop_eq_nil_of_le (by omega)]
    rfl
  · rw [read_bytes_none 1 s hlt (by omega)]

theorem read_type_some_inv (s : Cursor) (t : TagType) (s1 : Cursor)
    (h : read_type s = some (t, s1)) :
    s.cur < s.bytes.length ∧ t = tag_from_id (s.bytes.getD s.cur 0)
    ∧ s1 = Cursor.mk s.bytes (s.cur + 1) := by
  by_cases hlt : s.cur < s.bytes.length
  · rw [read_type_eq_of_lt s hlt] at h
    injection h with h'
    exact ⟨hlt, congrArg Prod.fst h'.symm, congrArg Prod.snd h'.symm⟩
  · rw [read_type_none_of_ge s (by omega)] at h
    exact absurd h (by simp)

/-- After a successful `read_type` returning `End`, the cursor sits right
after a zero byte. -/
theorem read_type_end_inv (s : Cursor) (s1 : Cursor)
    (h : read_type s = some (TagType.End, s1)) :
    1 ≤ s1.cur ∧ s1.cur ≤ s1.bytes.length ∧ s1.bytes.getD (s1.cur - 1) 0 = 0 := by
  obtain ⟨hlt, ht, hs1⟩ := read_type_some_inv s TagType.End s1 h
  have hb : s.bytes.getD s.cur 0 = 0 := (tag_from_id_end_iff _).mp ht.symm
  subst hs1
  refine ⟨?_, ?_, ?_⟩
  · show 1 ≤ s.cur + 1
    omega
  · show s.cur + 1 ≤ s.bytes.length
    omega
  · show s.bytes.getD (s.cur + 1 - 1) 0 = 0
    rw [Nat.add_sub_cancel]
    exact hb

theorem getLast?_cons_of_ne_nil {α : Type} {x : α} {rest : List α}
    (h : rest ≠ []) : (x :: rest).getLast? = rest.getLast? := by
  cases rest with
  | nil => exact absurd rfl h
  | cons b l => rw [List.getLast?_cons_cons]

/-- The invariant of the compound-reading loop, for ANY payload reader `rp`:
a successful read yields a non-empty child list whose last element is the
terminating `Tag { name: "", payload: End }`, and the loop returns
immediately after consuming that `End` type byte (the final cursor sits just
past a zero byte). -/
theorem readCompoundAux_spec (rp : TagType → Cursor → Option (TagPayload × Cursor)) :
    ∀ (fuel : Nat) (s : Cursor) (tags : List Tag) (sf : Cursor),
      readCompoundAux rp fuel s = some (tags, sf) →
      tags ≠ [] ∧ tags.getLast? = some (Tag.mk [] TagPayload.End)
      ∧ 1 ≤ sf.cur ∧ sf.cur ≤ sf.bytes.length ∧ sf.bytes.getD (sf.cur - 1) 0 = 0 := by
  intro fuel
  induction fuel with
  | zero =>
    intro s tags sf h
    simp [readCompoundAux] at h
  | succ fuel ih =>
    intro s tags sf h
    rw [readCompoundAux] at h
    split at h
    · exact absurd h (by simp)
    · rename_i t s1 heq
      split at h
      · rename_i hEnd
        subst hEnd
        injection h with h'
        have htags : [Tag.mk [] TagPayload.End] = tags := congrArg Prod.fst h'
        have hsf : s1 = sf := congrArg Prod.snd h'
        obtain ⟨h1, h2, h3⟩ := read_type_end_inv s s1 heq
        rw [hsf] at h1 h2 h3
        exact ⟨by rw [← htags]; simp, by rw [← htags]; simp, h1, h2, h3⟩
      · split at h
        · exact absurd h (by simp)
        · rename_i nm s2 hname
          split at h
          · -- nested compound child
            split at h
            · exact absurd h (by simp)
            · rename_i t2 s3 heq2
              split at h
              · -- empty nested compound: child is ⟨nm, End⟩
                split at h
                · exact absurd h (by simp)
                · rename_i rest sf2 hrec
                  injection h with h'
                  have htags : Tag.mk nm TagPayload.End :: rest = tags :=
                    congrArg Prod.fst h'
                  have hsf : sf2 = sf := congrArg Prod.snd h'
                  obtain ⟨hne, hlast, hc1, hc2, hc3⟩ := ih s3 rest sf2 hrec
                  rw [hsf] at hc1 hc2 hc3
                  refine ⟨by rw [← htags]; simp, ?_, hc1, hc2, hc3⟩
                  rw [← htags, getLast?_cons_of_ne_nil hne, hlast]
              · -- non-empty nested compound: child re-parsed as first child
                split at h
                · exact absurd h (by simp)
                · rename_i nm2 s4 hname2
                  split at h
                  · exact absurd h (by simp)
                  · rename_i p s5 hp
                    split at h
                    · exact absurd h (by simp)
                    · rename_i rest sf2 hrec
                      injection h with h'
                      have htags : Tag.mk nm2 p :: rest = tags :=
                        congrArg Prod.fst h'
                      have hsf : sf2 = sf := congrArg Prod.snd h'
                      obtain ⟨hne, hlast, hc1, hc2, hc3⟩ := ih s5 rest sf2 hrec
                      rw [hsf] at hc1 hc2 hc3
                      refine ⟨by rw [← htags]; simp, ?_, hc1, hc2, hc3⟩
                      rw [← htags, getLast?_cons_of_ne_nil hne, hlast]
          · -- ordinary child payload
            split at h
            · exact absurd h (by simp)
            · rename_i p s3 hp
              split at h
              · exact absurd h (by simp)
              · rename_i rest sf2 hrec
                injection h with h'
                have htags : Tag.mk nm p :: rest = tags :=
                  congrArg Prod.fst h'
                have hsf : sf2 = sf := congrArg Prod.snd h'
                obtain ⟨hne, hlast, hc1, hc2, hc3⟩ := ih s3 rest sf2 hrec
                rw [hsf] at hc1 hc2 hc3
                refine ⟨by rw [← htags]; simp, ?_, hc1, hc2, hc3⟩
                rw [← htags, getLast?_cons_of_ne_nil hne, hlast]

/-- Only the `Compound` arm of `read_payload` can produce a `Compound`
payload, and it does so exactly through the compound-reading loop. -/
theorem readPayload_compound_inv :
    ∀ (fuel : Nat) (t : TagType) (s : Cursor) (children : List Tag) (sf : Cursor),
      readPayload fuel t s = some (TagPayload.Compound children, sf) →
      t = TagType.Compound
      ∧ ∃ f', fuel = f' + 1
          ∧ readCompoundAux (readPayload f') f' s = some (children, sf) := by
  intro fuel t s children sf h
  match fuel with
  | 0 => simp [readPayload] at h
  | f' + 1 =>
    cases t with
    | End => rw [readPayload] at h; simp at h
    | Byte =>
      rw [readPayload] at h
      split at h
      · simp at h
      · simp at h
    | Short =>
      rw [readPayload] at h
      split at h
      · simp at h
      · simp at h
    | Int =>
      rw [readPayload] at h
      split at h
      · simp at h
      · simp at h
    | Long =>
      rw [readPayload] at h
      split at h
      · simp at h
      · simp at h
    | Float =>
      rw [readPayload] at h
      split at h
      · simp at h
      · simp at h
    | Double =>
      rw [readPayload] at h
      split at h
      · simp at h
      · simp at h
    | ByteArray =>
      rw [readPayload] at h
      split at h
      · simp at h
      · split at h
        · simp at h
        · simp at h
    | String =>
      rw [readPayload] at h
      split at h
      · simp at h
      · split at h
        · simp at h
        · simp at h
    | List =>
      rw [readPayload] at h
      split at h
      · simp at h
      · simp at h
      · split at h
        · simp at h
        · split at h
          · simp at h
          · simp at h
    | IntArray =>
      rw [readPayload] at h
      split at h
      · simp at h
      · split at h
        · simp at h
        · simp at h
    | LongArray =>
      rw [readPayload] at h
      split at h
      · simp at h
      · split at h
        · simp at h
        · simp at h
    | Invalid => rw [readPayload] at h; simp at h
    | Compound =>
      rw [readPayload] at h
      split at h
      · simp at h
      · rename_i tags s' hrec
        injection h with h'
        have h1 : tags = children := by
          have hfst := congrArg Prod.fst h'
          simpa using hfst
        have h2 : s' = sf := congrArg Prod.snd h'
        exact ⟨rfl, f', rfl, by rw [← h1, ← h2]; exact hrec⟩

end CompoundLemmas

/-- C10: for every byte input whose NBT parse succeeds with a Compound
payload, the children sequence is non-empty and its last element is the tag
with empty name and End payload (the terminating End is retained as the
final child); moreover the compound-reading loop — for any payload reader —
returns immediately upon reading the End type byte: its final cursor sits
just past a zero byte inside the buffer. -/
theorem claim_C10_compound_terminator :
    (∀ (fuel : Nat) (bytes : List Nat) (tag : Tag) (children : List Tag),
      parseTag fuel bytes = some tag →
      tag.payload = TagPayload.Compound children →
      children ≠ [] ∧ children.getLast? = some (Tag.mk [] TagPayload.End))
    ∧ (∀ (rp : TagType → Cursor → Option (TagPayload × Cursor)) (fuel : Nat)
        (s : Cursor) (tags : List Tag) (sf : Cursor),
      readCompoundAux rp fuel s = some (tags, sf) →
      tags ≠ [] ∧ tags.getLast? = some (Tag.mk [] TagPayload.End)
      ∧ 1 ≤ sf.cur ∧ sf.cur ≤ sf.bytes.length
      ∧ sf.bytes.getD (sf.cur - 1) 0 = 0) := by
  constructor
  · intro fuel bytes tag children hparse hpayload
    rw [parseTag] at hparse
    split at hparse
    · simp at hparse
    · rename_i t s1 heq
      split at hparse
      · split at hparse
        · simp at hparse
        · rename_i p s2 hp
          injection hparse with h'
          have hp2 : p = TagPayload.Compound children := by
            rw [← h'] at hpayload
            exact hpayload
          subst hp2
          obtain ⟨hcomp, _, _, _⟩ :=
            readPayload_compound_inv fuel TagType.End s1 children s2 hp
          exact absurd hcomp (by simp)
      · split at hparse
        · simp at hparse
        · rename_i nm s2 hname
          split at hparse
          · simp at hparse
          · rename_i p s3 hp
            injection hparse with h'
            have hp2 : p = TagPayload.Compound children := by
              rw [← h'] at hpayload
              exact hpayload
            subst hp2
            obtain ⟨hcomp, f', hfuel, hrec⟩ :=
              readPayload_compound_inv fuel t s2 children s3 hp
            obtain ⟨ha, hb, _, _, _⟩ :=
              readCompoundAux_spec (readPayload f') f' s2 children s3 hrec
            exact ⟨ha, hb⟩
  · intro rp fuel s tags sf h
    exact readCompoundAux_spec rp fuel s tags sf h

/-- Witness for C10: the 4-byte stream `0A 00 00 00` (an empty compound with
empty name) parses to a Compound whose single child is the terminating End
tag, and the bare loop on the buffer `[0]` stops right after the End byte. -/
theorem claim_C10_compound_terminator_witness :
    (parseTag 3 [10, 0, 0, 0]
        = some (Tag.mk [] (TagPayload.Compound [Tag.mk [] TagPayload.End]))
      ∧ ([Tag.mk [] TagPayload.End] ≠ ([] : List Tag)
        ∧ ([Tag.mk [] TagPayload.End] : List Tag).getLast?
            = some (Tag.mk [] TagPayload.End)))
    ∧ (readCompoundAux (fun _ _ => none) 1 (Cursor.mk [0] 0)
        = some ([Tag.mk [] TagPayload.End], Cursor.mk [0] 1)
      ∧ ([Tag.mk [] TagPayload.End] ≠ ([] : List Tag)
        ∧ ([Tag.mk [] TagPayload.End] : List Tag).getLast?
            = some (Tag.mk [] TagPayload.End)
        ∧ 1 ≤ (Cursor.mk [0] 1).cur
        ∧ (Cursor.mk [0] 1).cur ≤ (Cursor.mk [0] 1).bytes.length
        ∧ (Cursor.mk [0] 1).bytes.getD ((Cursor.mk [0] 1).cur - 1) 0 = 0)) := by
  have h1 : parseTag 3 [10, 0, 0, 0]
      = some (Tag.mk [] (TagPayload.Compound [Tag.mk [] TagPayload.End])) := rfl
  have h2 : readCompoundAux (fun _ _ => none) 1 (Cursor.mk [0] 0)
      = some ([Tag.mk [] TagPayload.End], Cursor.mk [0] 1) := rfl
  exact ⟨⟨h1, claim_C10_compound_terminator.1 3 [10, 0, 0, 0] _ _ h1 rfl⟩,
    ⟨h2, claim_C10_compound_terminator.2 (fun _ _ => none) 1
      (Cursor.mk [0] 0) _ _ h2⟩⟩

/-- C2 fails on the code: an `IntArray` payload declaring `N = 1` with the
big-endian element `0x0000002A = 42` is decoded by re-chunking the 4 bytes
into TWO native-endian (little-endian) `i16`s, `[0, 10752]` — two values
instead of one, and neither equals 42; a `LongArray` payload declaring
`N = 1` with big-endian element 1 decodes to the single native-endian value
`2 ^ 56` instead of 1. The element counts and values contradict the
big-endian `i32`/`i64` reading the claim (and the comments and test vectors
of the source itself) specify. -/
theorem claim_C2_array_payload_evaluation :
    readPayload 10 TagType.IntArray (Cursor.mk [0, 0, 0, 1, 0, 0, 0, 42] 0)
      = some (TagPayload.IntArray [0, 10752], Cursor.mk [0, 0, 0, 1, 0, 0, 0, 42] 8)
    ∧ ¬ ([(0 : Int), 10752] : List Int).length = 1
    ∧ readPayload 10 TagType.LongArray
        (Cursor.mk [0, 0, 0, 1, 0, 0, 0, 0, 0, 0, 0, 1] 0)
      = some (TagPayload.LongArray [72057594037927936],
          Cursor.mk [0, 0, 0, 1, 0, 0, 0, 0, 0, 0, 0, 1] 12)
    ∧ ¬ (72057594037927936 : Int) = 1 := by
  refine ⟨rfl, by simp, rfl, by decide⟩

end Rustymap
